import Mathlib

/-!
Shallow embedding of the two core components of the hri-physio repository:

* `RingBuffer` embeds the template class `hriPhysio::Core::RingBuffer<T>`
  from `src/HriPhysioLib/include/HriPhysio/Core/ringBuffer.h`.
* `Graph` embeds the class `hriPhysio::Core::Graph` whose member functions
  live in `src/HriPhysioLib/src/graph.cpp` (its header `graph.h` is not part
  of the sources; the member declarations are modelled from the spec and
  from their uses in `graph.cpp`).

Conventions: `std::size_t` is modelled as `Nat`, with an explicit
`% 2 ^ 64` exactly where the C++ arithmetic can wrap (the bulk-enqueue
eviction); `int` is modelled as `Int`; `double` edge weights are modelled
as `Rat` (exact for the dyadic literals appearing in the claims); a
function that throws is modelled with `Option`; the per-instance mutex
serializes every public call in C++, so one Lean state-transformer
application models one complete locked call.
-/

set_option maxHeartbeats 1000000

/-- Width bound of `std::size_t`: its arithmetic wraps modulo `2 ^ 64`. -/
def w64 : ℕ := 2 ^ 64

/-- State of `hriPhysio::Core::RingBuffer<T>` (ringBuffer.h, lines 29-56).
`buffer` models the owned array `std::unique_ptr<T[]>` as a total map;
operations never read indices `≥ buffer_length`. -/
structure RingBuffer (α : Type) where
  buffer : ℕ → α
  buffer_length : ℕ
  buffer_head : ℕ
  buffer_tail : ℕ
  buffer_size : ℕ
  warnings : Bool

/-- Constructor `RingBuffer(length)`: `make_unique<T[]>(length)`
value-initializes the storage; all indices start at 0. -/
def mkRingBuffer {α : Type} [Inhabited α] (length : ℕ) : RingBuffer α :=
  { buffer := fun _ => default
    buffer_length := length
    buffer_head := 0
    buffer_tail := 0
    buffer_size := 0
    warnings := false }

/-- `setWarnings(bool)`: sets the diagnostics flag only. -/
def RingBuffer.setWarnings {α : Type} (rb : RingBuffer α) (value : Bool) :
    RingBuffer α :=
  { rb with warnings := value }

/-- `empty()`: `buffer_size == 0`. -/
def RingBuffer.empty {α : Type} (rb : RingBuffer α) : Bool :=
  decide (rb.buffer_size = 0)

/-- `full()`: `buffer_size >= buffer_length`. -/
def RingBuffer.full {α : Type} (rb : RingBuffer α) : Bool :=
  decide (rb.buffer_length ≤ rb.buffer_size)

/-- `size()`: number of stored elements. -/
def RingBuffer.size {α : Type} (rb : RingBuffer α) : ℕ :=
  rb.buffer_size

/-- `length()`: the allocated capacity. -/
def RingBuffer.capacity {α : Type} (rb : RingBuffer α) : ℕ :=
  rb.buffer_length

/-- `clear()`: fills the allocated cells with the default value and
resets the three indices. -/
def RingBuffer.clear {α : Type} [Inhabited α] (rb : RingBuffer α) :
    RingBuffer α :=
  { rb with
    buffer := fun i => if i < rb.buffer_length then default else rb.buffer i
    buffer_size := 0
    buffer_head := 0
    buffer_tail := 0 }

/-- `resize(length)`: installs a fresh value-initialized array of the new
length, then calls `clear()`. -/
def RingBuffer.resize {α : Type} [Inhabited α] (rb : RingBuffer α)
    (length : ℕ) : RingBuffer α :=
  RingBuffer.clear { rb with buffer_length := length, buffer := fun _ => default }

/-- Single-element `enqueue(item)` (ringBuffer.h, lines 125-154): fails on a
zero-capacity buffer; if full, first advances `head` and decrements `size`
(overwrite policy); then writes at `tail`, advances `tail`, increments
`size`. -/
def RingBuffer.enqueue {α : Type} (rb : RingBuffer α) (item : α) :
    Bool × RingBuffer α :=
  if rb.buffer_length = 0 then (false, rb)
  else
    let rb1 := if rb.full then
        { rb with
          buffer_head := (rb.buffer_head + 1) % rb.buffer_length
          buffer_size := rb.buffer_size - 1 }
      else rb
    (true,
      { rb1 with
        buffer := fun i => if i = rb1.buffer_tail then item else rb1.buffer i
        buffer_tail := (rb1.buffer_tail + 1) % rb1.buffer_length
        buffer_size := rb1.buffer_size + 1 })

/-- One iteration of the copy loop of bulk `enqueue` (ringBuffer.h, lines
193-201): write the item at `tail`, advance `tail`, increment `size` (a
`std::size_t` increment, wrapping modulo `2 ^ 64`). -/
def enqueueBulkStep {α : Type} (acc : RingBuffer α) (x : α) : RingBuffer α :=
  { acc with
    buffer := fun i => if i = acc.buffer_tail then x else acc.buffer i
    buffer_tail := (acc.buffer_tail + 1) % acc.buffer_length
    buffer_size := (acc.buffer_size + 1) % w64 }

/-- Bulk `enqueue(items, length)` (ringBuffer.h, lines 165-203).  The list
plays the role of the array/length pair.  When `size + length >= capacity`
the code advances `head` by `length` and executes `buffer_size -= length`;
that subtraction is `std::size_t` arithmetic and wraps modulo `2 ^ 64`
whenever `size < length`, which the embedding reproduces exactly, as it
does for the `++buffer_size` steps of the copy loop. -/
def RingBuffer.enqueueBulk {α : Type} (rb : RingBuffer α) (items : List α) :
    Bool × RingBuffer α :=
  if items.length > rb.buffer_length ∨ rb.buffer_length = 0 then (false, rb)
  else
    let rb1 := if rb.buffer_size + items.length ≥ rb.buffer_length then
        { rb with
          buffer_head := ((rb.buffer_head + items.length) % w64) % rb.buffer_length
          buffer_size := (rb.buffer_size + (w64 - items.length)) % w64 }
      else rb
    (true, items.foldl enqueueBulkStep rb1)

/-- Single-element `dequeue()` (ringBuffer.h, lines 204-222): returns the
element at `head`, advances `head`, decrements `size`; fails (returning
`nullopt`) on a zero-capacity or empty buffer. -/
def RingBuffer.dequeue {α : Type} (rb : RingBuffer α) :
    Option α × RingBuffer α :=
  if rb.buffer_length = 0 then (none, rb)
  else if rb.empty then (none, rb)
  else
    (some (rb.buffer rb.buffer_head),
      { rb with
        buffer_head := (rb.buffer_head + 1) % rb.buffer_length
        buffer_size := rb.buffer_size - 1 })

/-- One iteration of the copy loop of bulk `dequeue` (ringBuffer.h, lines
252-259): the running state is (output written so far, read cursor
`buffer_pos`, buffer object); every iteration copies the cell at the
cursor and advances it, and while `idx < keep` it also advances `head`
and decrements `size`. -/
def dequeueBulkStep {α : Type} (keep : ℕ)
    (st : List α × ℕ × RingBuffer α) (idx : ℕ) : List α × ℕ × RingBuffer α :=
  let out := st.1 ++ [st.2.2.buffer st.2.1]
  let pos := (st.2.1 + 1) % st.2.2.buffer_length
  if idx < keep then
    (out, pos,
      { st.2.2 with
        buffer_head := (st.2.2.buffer_head + 1) % st.2.2.buffer_length
        buffer_size := st.2.2.buffer_size - 1 })
  else (out, pos, st.2.2)

/-- Bulk `dequeue(items, length, overlap)` (ringBuffer.h, lines 232-261):
copies `length` consecutive elements starting at `head`, but advances
`head`/decrements `size` only while `idx < length - overlap`.  The written
output array is returned as a list. -/
def RingBuffer.dequeueBulk {α : Type} (rb : RingBuffer α)
    (length overlap : ℕ) : Option (List α) × RingBuffer α :=
  if length > rb.buffer_length ∨ rb.buffer_length = 0 ∨ overlap > length then
    (none, rb)
  else if length > rb.buffer_size then (none, rb)
  else
    let keep := length - overlap
    let st := (List.range length).foldl (dequeueBulkStep keep)
      ([], rb.buffer_head, rb)
    (some st.1, st.2.2)

/-- Single-element `front()` (ringBuffer.h, lines 262-277): peeks `head`
without mutating; fails on a zero-capacity or empty buffer. -/
def RingBuffer.front {α : Type} (rb : RingBuffer α) : Option α :=
  if rb.buffer_length = 0 then none
  else if rb.empty then none
  else some (rb.buffer rb.buffer_head)

/-- The copy loop of bulk `front` walks a temporary cursor from a start
position, reading `n` consecutive cells modulo the capacity. -/
def readWalk {α : Type} (buf : ℕ → α) (cap : ℕ) : ℕ → ℕ → List α
  | 0, _ => []
  | n + 1, pos => buf pos :: readWalk buf cap n ((pos + 1) % cap)

/-- Bulk `front(items, length)` (ringBuffer.h, lines 286-316; the declared
signature in the file mistakenly reads `front(T& item)`, but the body is
the bulk peek the spec describes): copies `length` elements from
`temp_head = head` without touching `head` or `size`; fails when
`length > capacity`, the capacity is zero, or `length > size`. -/
def RingBuffer.frontBulk {α : Type} (rb : RingBuffer α) (length : ℕ) :
    Option (List α) :=
  if length > rb.buffer_length ∨ rb.buffer_length = 0 then none
  else if length > rb.buffer_size then none
  else some (readWalk rb.buffer rb.buffer_length length rb.buffer_head)

/-- Abstraction (not a C++ member): the queue's logical contents, oldest
first, i.e. the `size` cells starting at `head`, wrapping at `capacity`. -/
def RingBuffer.toList {α : Type} (rb : RingBuffer α) : List α :=
  (List.range rb.buffer_size).map
    (fun i => rb.buffer ((rb.buffer_head + i) % rb.buffer_length))

/-- The state invariants of the buffer, as the spec states them:
`count ≤ capacity`, and — whenever the capacity is positive — `head` and
`tail` lie in `[0, capacity)` and `tail = (head + count) % capacity`. -/
def RingBuffer.Inv {α : Type} (rb : RingBuffer α) : Prop :=
  rb.buffer_size ≤ rb.buffer_length ∧
    (0 < rb.buffer_length →
      rb.buffer_head < rb.buffer_length ∧
      rb.buffer_tail < rb.buffer_length ∧
      rb.buffer_tail = (rb.buffer_head + rb.buffer_size) % rb.buffer_length)

/-! ## Graph (graph.cpp) -/

/-- Adjacency-list entry `Edge{to, weight}`; modelled from the spec's data
model (§3) and the uses in `graph.cpp` (`graph.h` is not in the sources).
The C++ member `to` is spelled `dest` here (`to` is a reserved token in
this Lean environment); `weight` is the `double` edge weight, modelled as
an exact rational. -/
structure Edge where
  dest : ℤ
  weight : ℚ

/-- The `Graph` object: `num_nodes` and `num_edges` are C++ `int`s, and
`nbr` models the owned array `unique_ptr<vector<Edge>[]>` of adjacency
lists as a total map (indices outside `[0, num_nodes)` are never used by
code reachable through `addEdge`-built graphs). -/
structure Graph where
  num_nodes : ℤ
  num_edges : ℤ
  nbr : ℤ → List Edge

/-- Constructor `Graph(n)`: `n` nodes, no edges, all adjacency lists empty. -/
def mkGraph (n : ℤ) : Graph :=
  { num_nodes := n, num_edges := 0, nbr := fun _ => [] }

/-- `Graph::addEdge(u, v, weight)` (graph.cpp, lines 28-36): throws
`std::out_of_range` — modelled as `none` — when an endpoint lies outside
`[0, num_nodes)`, before any mutation; otherwise appends `(v,w)` to
`nbr[u]`, then `(u,w)` to `nbr[v]`, and increments `num_edges`. -/
def Graph.addEdge (g : Graph) (u v : ℤ) (weight : ℚ) : Option Graph :=
  if u ≥ g.num_nodes ∨ u < 0 ∨ v ≥ g.num_nodes ∨ v < 0 then none
  else
    let nbr1 : ℤ → List Edge :=
      fun i => if i = u then g.nbr u ++ [Edge.mk v weight] else g.nbr i
    let nbr2 : ℤ → List Edge :=
      fun i => if i = v then nbr1 v ++ [Edge.mk u weight] else nbr1 i
    some { g with nbr := nbr2, num_edges := g.num_edges + 1 }

/-- `Graph::getNumEdges()` (graph.cpp, lines 39-41). -/
def Graph.getNumEdges (g : Graph) : ℤ :=
  g.num_edges

/-- A sequence of `addEdge` calls performed on one graph object; a call
that throws leaves the object unchanged (the exception propagates past the
mutating code, which has not yet run). -/
def processCalls (g : Graph) (calls : List (ℤ × ℤ × ℚ)) : Graph :=
  calls.foldl (fun acc c => (acc.addEdge c.1 c.2.1 c.2.2).getD acc) g

/-- C++ `double`-to-`int` conversion: truncation toward zero.  This models
the initialization `int weight = edge.weight + currentDist;` in
`Graph::dijkstra` (graph.cpp, line 113). -/
def truncToInt (q : ℚ) : ℤ :=
  if 0 ≤ q then ⌊q⌋ else ⌈q⌉

/-- Comparator of the fringe: `std::priority_queue<pii, vector<pii>,
greater<pii>>` pops the lexicographically least `(distance, node)` pair. -/
def pairLe (a b : ℤ × ℤ) : Prop :=
  a.1 < b.1 ∨ (a.1 = b.1 ∧ a.2 ≤ b.2)

instance : DecidablePred fun p : (ℤ × ℤ) × (ℤ × ℤ) => pairLe p.1 p.2 :=
  fun p => by unfold pairLe; infer_instance

instance (a b : ℤ × ℤ) : Decidable (pairLe a b) := by
  unfold pairLe; infer_instance

/-- The fringe is modelled as a list kept sorted under `pairLe`, so that
its head is always a minimal `(distance, node)` pair: exactly the
observable pop behaviour of the `std::priority_queue` (duplicate minimal
pairs are identical values, so the popped value is uniquely determined). -/
def fringeInsert (p : ℤ × ℤ) : List (ℤ × ℤ) → List (ℤ × ℤ)
  | [] => [p]
  | q :: rest => if pairLe p q then p :: q :: rest else q :: fringeInsert p rest

/-- The per-query state of `Graph::dijkstra`: `dist`/`prev` are the `int`
vectors with sentinel `-1`, `used` the finalization flags, `fringe` the
priority queue.  Vectors indexed by node are modelled as total maps. -/
structure DijkstraState where
  dist : ℤ → ℤ
  prev : ℤ → ℤ
  used : ℤ → Bool
  fringe : List (ℤ × ℤ)

/-- Relaxation of one edge out of `fromNode` (graph.cpp, lines 111-126):
`int weight = edge.weight + currentDist` truncates the `double` sum to
`int`; an already-finalized neighbor is skipped; otherwise, if the
neighbor is unreached (`dist == -1`) or the new weight is strictly
smaller, `dist`/`prev` are updated and `(dist[to], to)` is pushed. -/
def relaxEdge (fromNode currentDist : ℤ) (st : DijkstraState) (edge : Edge) :
    DijkstraState :=
  let toNode := edge.dest
  let weight := truncToInt (edge.weight + (currentDist : ℚ))
  if st.used toNode then st
  else if st.dist toNode = -1 ∨ weight < st.dist toNode then
    { st with
      dist := fun n => if n = toNode then weight else st.dist n
      prev := fun n => if n = toNode then fromNode else st.prev n
      fringe := fringeInsert (weight, toNode) st.fringe }
  else st

/-- The main loop of `Graph::dijkstra` (graph.cpp, lines 98-127): pop the
minimal pair; skip it if already finalized; otherwise finalize it and relax
its neighbors.  `fuel` bounds the iteration count; each iteration pops one
element and pushes at most once per edge out of a newly finalized node, so
the loop always empties its fringe within `1 + sum of the adjacency-list
lengths` iterations. -/
def dijkstraLoop (nbr : ℤ → List Edge) : ℕ → DijkstraState → DijkstraState
  | 0, st => st
  | fuel + 1, st =>
    match st.fringe with
    | [] => st
    | (currentDist, fromNode) :: rest =>
      if st.used fromNode then
        dijkstraLoop nbr fuel { st with fringe := rest }
      else
        let st1 : DijkstraState :=
          { st with
            fringe := rest
            used := fun n => if n = fromNode then true else st.used n }
        dijkstraLoop nbr fuel
          ((nbr fromNode).foldl (relaxEdge fromNode currentDist) st1)

/-- `Graph::dijkstra(source)` (graph.cpp, lines 80-129): fresh `dist`/`prev`
filled with `-1`, `dist[source] = 0`, fringe seeded with
`(dist[source], source)`.  For a graph built by `addEdge`, the sum of the
adjacency-list lengths is `2 * num_edges`, so the fuel `1 + 2 * num_edges`
always exhausts the fringe (see the loop's comment). -/
def Graph.dijkstra (g : Graph) (source : ℤ) : DijkstraState :=
  dijkstraLoop g.nbr (1 + 2 * g.num_edges).toNat
    { dist := fun n => if n = source then 0 else -1
      prev := fun _ => -1
      used := fun _ => false
      fringe := [(0, source)] }

/-- The path-recovery loop of `Graph::shortestPath` (graph.cpp, lines
57-60): `for (int from = target; from != -1; from = prev[from])
path.push_back(from);`.  The fuel bounds the walk; along a `prev` chain
produced by `dijkstra` it strictly shortens the remaining chain, and the
caller passes `num_nodes + 1` which covers every acyclic chain. -/
def reconPath (prev : ℤ → ℤ) : ℕ → ℤ → List ℤ
  | 0, _ => []
  | fuel + 1, cur => if cur = -1 then [] else cur :: reconPath prev fuel (prev cur)

/-- The message-building loop of `Graph::shortestPath` (graph.cpp, lines
70-76): append `-` before every node except the first. -/
def buildMessage (path : List ℤ) : String :=
  (path.foldl
    (fun (acc : ℕ × String) node =>
      (acc.1 + 1, acc.2 ++ (if acc.1 ≠ 0 then "-" else "") ++ toString node))
    (0, "")).2

/-- `Graph::shortestPath(source, target, message)` (graph.cpp, lines
44-77): equal endpoints short-circuit to `"s-t"`; otherwise run `dijkstra`,
rebuild the path backwards from `target`, reverse it, return `""` when the
reversed path has exactly one node, and otherwise join the nodes with
`-`.  The in-out `message` parameter is modelled as the return value. -/
def Graph.shortestPath (g : Graph) (source target : ℤ) : String :=
  if source = target then toString source ++ "-" ++ toString target
  else
    let st := g.dijkstra source
    let path := (reconPath st.prev (g.num_nodes.toNat + 1) target).reverse
    if path.length = 1 then "" else buildMessage path

/-- One undirected adjacency step: some stored edge leads from `u` to `v`. -/
def adjStep (g : Graph) (u v : ℤ) : Prop :=
  ∃ e ∈ g.nbr u, e.dest = v

/-- Reachability along stored edges (reflexive-transitive closure). -/
def Reach (g : Graph) : ℤ → ℤ → Prop :=
  Relation.ReflTransGen (adjStep g)

/-- Evaluation of the C++ `int` conversion on an integral value: exact. -/
theorem truncToInt_intCast (n : ℤ) : truncToInt (n : ℚ) = n := by
  unfold truncToInt
  split
  · exact Int.floor_intCast n
  · exact Int.ceil_intCast n

/-- A sequence of single-element `enqueue` calls, in list order. -/
def enqueueSeq {α : Type} (rb : RingBuffer α) (xs : List α) : RingBuffer α :=
  xs.foldl (fun acc x => (acc.enqueue x).2) rb

/-- A sequence of `n` single-element `dequeue` calls, collecting the
returned values and stopping at the first failed call. -/
def drainSeq {α : Type} : ℕ → RingBuffer α → List α
  | 0, _ => []
  | n + 1, rb =>
    match rb.dequeue with
    | (none, _) => []
    | (some x, rb') => x :: drainSeq n rb'

/-- Reading `getD` inside the left part of an append. -/
theorem getD_append_lt {α : Type} (ys zs : List α) (d : α) :
    ∀ i, i < ys.length → (ys ++ zs).getD i d = ys.getD i d := by
  induction ys with
  | nil => intro i h; simp at h
  | cons y t ih =>
    intro i h
    cases i with
    | zero => rfl
    | succ j =>
      simp only [List.cons_append, List.getD_cons_succ]
      exact ih j (by simpa using h)

/-- Reading `getD` at the seam of an append. -/
theorem getD_append_len {α : Type} (ys : List α) (x : α) (zs : List α) (d : α) :
    (ys ++ x :: zs).getD ys.length d = x := by
  induction ys with
  | nil => rfl
  | cons y t ih => simpa using ih

/-- Reading every position of a list through `getD` reproduces the list. -/
theorem map_getD_range {α : Type} (d : α) :
    ∀ xs : List α, (List.range xs.length).map (fun i => xs.getD i d) = xs := by
  intro xs
  induction xs with
  | nil => rfl
  | cons x t ih =>
    rw [List.length_cons, List.range_succ_eq_map]
    simp only [List.map_cons, List.getD_cons_zero, List.map_map]
    have hfn : ((fun i => (x :: t).getD i d) ∘ Nat.succ) = fun i => t.getD i d := by
      funext i
      simp [List.getD_cons_succ]
    rw [hfn, ih]

/-- State evolution of a run of single-element enqueues that never fills
the buffer: `head` stays put, `size`/`tail` advance, and the cells
`0 .. |ys ++ xs| - 1` hold the enqueued values in order (`ys` are the
values already present). -/
theorem enqueueSeq_spec {α : Type} [Inhabited α] (c : ℕ) (hc : 0 < c) :
    ∀ (xs ys : List α) (rb : RingBuffer α),
      rb.buffer_length = c →
      rb.buffer_head = 0 →
      rb.buffer_size = ys.length →
      rb.buffer_tail = ys.length % c →
      ys.length + xs.length ≤ c →
      (∀ i, i < ys.length → rb.buffer i = ys.getD i default) →
      (enqueueSeq rb xs).buffer_length = c ∧
        (enqueueSeq rb xs).buffer_head = 0 ∧
        (enqueueSeq rb xs).buffer_size = ys.length + xs.length ∧
        (enqueueSeq rb xs).buffer_tail = (ys.length + xs.length) % c ∧
        (∀ i, i < ys.length + xs.length →
          (enqueueSeq rb xs).buffer i = (ys ++ xs).getD i default) := by
  intro xs
  induction xs with
  | nil =>
    intro ys rb h1 h2 h3 h4 h5 h6
    refine ⟨h1, h2, by simpa using h3, by simpa using h4, ?_⟩
    intro i hi
    simp only [List.length_nil, Nat.add_zero] at hi
    rw [show enqueueSeq rb [] = rb from rfl, h6 i hi, List.append_nil]
  | cons x t ih =>
    intro ys rb h1 h2 h3 h4 h5 h6
    have hys : ys.length < c := by
      simp only [List.length_cons] at h5
      omega
    have htail : rb.buffer_tail = ys.length := by
      rw [h4, Nat.mod_eq_of_lt hys]
    have hL : ¬ rb.buffer_length = 0 := by omega
    have hfull : ¬ rb.full = true := by
      simp [RingBuffer.full, h1, h3]
      omega
    have henq : (rb.enqueue x).2 =
        { rb with
          buffer := fun i => if i = rb.buffer_tail then x else rb.buffer i
          buffer_tail := (rb.buffer_tail + 1) % rb.buffer_length
          buffer_size := rb.buffer_size + 1 } := by
      unfold RingBuffer.enqueue
      rw [if_neg hL]
      simp [hfull]
    have hb6 : ∀ i, i < (ys ++ [x]).length →
        (rb.enqueue x).2.buffer i = (ys ++ [x]).getD i default := by
      intro i hi
      rw [henq]
      show (if i = rb.buffer_tail then x else rb.buffer i) = _
      rw [htail]
      simp only [List.length_append, List.length_cons, List.length_nil] at hi
      rcases (by omega : i < ys.length ∨ i = ys.length) with hlt | heq
      · rw [if_neg (by omega), getD_append_lt ys [x] default i hlt]
        exact h6 i hlt
      · subst heq
        rw [if_pos rfl, getD_append_len ys x [] default]
    have hmain := ih (ys ++ [x]) (rb.enqueue x).2
      (by rw [henq]; exact h1)
      (by rw [henq]; exact h2)
      (by rw [henq]; show rb.buffer_size + 1 = _; simp [h3])
      (by rw [henq]
          show (rb.buffer_tail + 1) % rb.buffer_length = _
          rw [htail, h1]
          simp)
      (by simp only [List.length_append, List.length_cons, List.length_nil] at h5 ⊢
          omega)
      hb6
    have hrw : enqueueSeq rb (x :: t) = enqueueSeq (rb.enqueue x).2 t := rfl
    rw [hrw]
    refine ⟨hmain.1, hmain.2.1, ?_, ?_, ?_⟩
    · rw [hmain.2.2.1]
      simp only [List.length_append, List.length_cons, List.length_nil]
      omega
    · rw [hmain.2.2.2.1]
      congr 1
      simp only [List.length_append, List.length_cons, List.length_nil]
      omega
    · intro i hi
      have hi' : i < (ys ++ [x]).length + t.length := by
        simp only [List.length_append, List.length_cons, List.length_nil] at hi ⊢
        omega
      rw [hmain.2.2.2.2 i hi']
      congr 1
      simp

/-- A run of `n` single-element dequeues reads the `n` consecutive cells
starting at `head`, leaving the buffer contents untouched. -/
theorem drainSeq_reads {α : Type} [Inhabited α] (c : ℕ) (hc : 0 < c) :
    ∀ (n : ℕ) (rb : RingBuffer α),
      rb.buffer_length = c → rb.buffer_head < c → n ≤ rb.buffer_size →
      drainSeq n rb = (List.range n).map
        (fun i => rb.buffer ((rb.buffer_head + i) % c)) := by
  intro n
  induction n with
  | zero => intro rb _ _ _; rfl
  | succ m ih =>
    intro rb h1 h2 h3
    have hne : ¬ rb.empty = true := by
      simp [RingBuffer.empty]
      omega
    have hL : ¬ rb.buffer_length = 0 := by omega
    have hdq : rb.dequeue = (some (rb.buffer rb.buffer_head),
        { rb with
          buffer_head := (rb.buffer_head + 1) % rb.buffer_length
          buffer_size := rb.buffer_size - 1 }) := by
      unfold RingBuffer.dequeue
      rw [if_neg hL, if_neg hne]
    have hstep : drainSeq (m + 1) rb = rb.buffer rb.buffer_head ::
        drainSeq m { rb with
          buffer_head := (rb.buffer_head + 1) % rb.buffer_length
          buffer_size := rb.buffer_size - 1 } := by
      simp [drainSeq, hdq]
    rw [hstep,
      ih _ (by simpa using h1)
        (by show (rb.buffer_head + 1) % rb.buffer_length < c
            rw [h1]; exact Nat.mod_lt _ hc)
        (by show m ≤ rb.buffer_size - 1; omega)]
    rw [List.range_succ_eq_map]
    simp only [List.map_cons, List.map_map]
    congr 1
    · rw [Nat.add_zero, Nat.mod_eq_of_lt h2]
    · apply List.map_congr_left
      intro i _
      show rb.buffer (((rb.buffer_head + 1) % rb.buffer_length + i) % c) = _
      rw [h1, Nat.mod_add_mod]
      congr 2
      omega

/-- Distinct positions of a ring: shifting a position `h < c` forward by
`0 < k < c` cells never lands back on `h` modulo `c`. -/
theorem mod_shift_ne (c h k : ℕ) (hh : h < c) (hk0 : 0 < k) (hkc : k < c) :
    (h + k) % c ≠ h := by
  intro he
  have h1 : (h + k) % c = (h + 0) % c := by
    rw [he, Nat.add_zero, Nat.mod_eq_of_lt hh]
  have h2 : k % c = 0 % c := Nat.ModEq.add_left_cancel' h h1
  rw [Nat.mod_eq_of_lt hkc, Nat.zero_mod] at h2
  omega

/-- The cursor walk reads consecutive cells modulo the capacity. -/
theorem readWalk_eq_map {α : Type} (B : ℕ → α) (c : ℕ) (hc : 0 < c) :
    ∀ (n pos : ℕ), pos < c →
      readWalk B c n pos = (List.range n).map (fun i => B ((pos + i) % c)) := by
  intro n
  induction n with
  | zero => intro pos _; rfl
  | succ m ih =>
    intro pos h
    show B pos :: readWalk B c m ((pos + 1) % c) = _
    rw [ih ((pos + 1) % c) (Nat.mod_lt _ hc), List.range_succ_eq_map]
    simp only [List.map_cons, List.map_map]
    congr 1
    · simp [Nat.mod_eq_of_lt h]
    · apply List.map_congr_left
      intro i _
      show B (((pos + 1) % c + i) % c) = B ((pos + Nat.succ i) % c)
      rw [Nat.mod_add_mod]
      congr 2
      omega

/-- Full characterization of the bulk-dequeue copy loop over an arbitrary
index list: the output grows by one consecutive read per iteration, the
cursor advances every iteration, and `head`/`size` move by the number of
indices below `keep`. -/
theorem dequeueBulk_fold {α : Type} (keep : ℕ) :
    ∀ (idxs : List ℕ) (out : List α) (pos : ℕ) (B : ℕ → α) (c hd t s : ℕ)
      (w : Bool), 0 < c → pos < c → hd < c →
      idxs.countP (fun j => decide (j < keep)) ≤ s →
      idxs.foldl (dequeueBulkStep keep) (out, pos, RingBuffer.mk B c hd t s w)
        = (out ++ readWalk B c idxs.length pos,
           (pos + idxs.length) % c,
           RingBuffer.mk B c
             ((hd + idxs.countP (fun j => decide (j < keep))) % c) t
             (s - idxs.countP (fun j => decide (j < keep))) w) := by
  intro idxs
  induction idxs with
  | nil =>
    intro out pos B c hd t s w hc hpos hhd hcount
    simp [readWalk, Nat.mod_eq_of_lt hpos, Nat.mod_eq_of_lt hhd]
  | cons j rest ih =>
    intro out pos B c hd t s w hc hpos hhd hcount
    by_cases hj : j < keep
    · have hcnt : (j :: rest).countP (fun i => decide (i < keep))
          = rest.countP (fun i => decide (i < keep)) + 1 := by
        simp [List.countP_cons, hj]
      rw [hcnt] at hcount
      have hstep : dequeueBulkStep keep (out, pos, RingBuffer.mk B c hd t s w) j
          = (out ++ [B pos], (pos + 1) % c,
             RingBuffer.mk B c ((hd + 1) % c) t (s - 1) w) := by
        simp [dequeueBulkStep, hj]
      rw [List.foldl_cons, hstep,
        ih (out ++ [B pos]) ((pos + 1) % c) B c ((hd + 1) % c) t (s - 1) w hc
          (Nat.mod_lt _ hc) (Nat.mod_lt _ hc) (by omega),
        hcnt, List.length_cons]
      rw [show (out ++ [B pos]) ++ readWalk B c rest.length ((pos + 1) % c)
            = out ++ readWalk B c (rest.length + 1) pos from by
          rw [List.append_assoc]; rfl]
      rw [show ((pos + 1) % c + rest.length) % c = (pos + (rest.length + 1)) % c from by
          rw [Nat.mod_add_mod]; congr 1; omega]
      rw [show ((hd + 1) % c + rest.countP (fun i => decide (i < keep))) % c
            = (hd + (rest.countP (fun i => decide (i < keep)) + 1)) % c from by
          rw [Nat.mod_add_mod]; congr 1; omega]
      rw [show s - 1 - rest.countP (fun i => decide (i < keep))
            = s - (rest.countP (fun i => decide (i < keep)) + 1) from by omega]
    · have hcnt : (j :: rest).countP (fun i => decide (i < keep))
          = rest.countP (fun i => decide (i < keep)) := by
        simp [List.countP_cons, hj]
      rw [hcnt] at hcount
      have hstep : dequeueBulkStep keep (out, pos, RingBuffer.mk B c hd t s w) j
          = (out ++ [B pos], (pos + 1) % c, RingBuffer.mk B c hd t s w) := by
        simp [dequeueBulkStep, hj]
      rw [List.foldl_cons, hstep,
        ih (out ++ [B pos]) ((pos + 1) % c) B c hd t s w hc
          (Nat.mod_lt _ hc) hhd hcount,
        hcnt, List.length_cons]
      rw [show (out ++ [B pos]) ++ readWalk B c rest.length ((pos + 1) % c)
            = out ++ readWalk B c (rest.length + 1) pos from by
          rw [List.append_assoc]; rfl]
      rw [show ((pos + 1) % c + rest.length) % c = (pos + (rest.length + 1)) % c from by
          rw [Nat.mod_add_mod]; congr 1; omega]

/-- Counting the indices below `keep` among `0 .. L-1` gives `keep` when
`keep ≤ L`. -/
theorem countP_range_lt (keep L : ℕ) (h : keep ≤ L) :
    (List.range L).countP (fun j => decide (j < keep)) = keep := by
  obtain ⟨d, rfl⟩ : ∃ d, L = keep + d := ⟨L - keep, by omega⟩
  rw [List.range_add, List.countP_append]
  have h1 : (List.range keep).countP (fun j => decide (j < keep))
      = (List.range keep).length := by
    rw [List.countP_eq_length]
    intro a ha
    simp [List.mem_range.1 ha]
  have h2 : ((List.range d).map (fun x => keep + x)).countP
      (fun j => decide (j < keep)) = 0 := by
    rw [List.countP_eq_zero]
    intro a ha
    obtain ⟨i, -, rfl⟩ := List.mem_map.1 ha
    simp
  rw [h1, h2, List.length_range]
  omega

/-- Closed form of a successful bulk dequeue: it returns the `length`
cells starting at `head` and retires `length - overlap` of them. -/
theorem dequeueBulk_eq {α : Type} (B : ℕ → α) (c hd t s : ℕ) (w : Bool)
    (L o : ℕ) (hc : 0 < c) (hh : hd < c) (hL : L ≤ c) (ho : o ≤ L)
    (hcnt : L ≤ s) :
    (RingBuffer.mk B c hd t s w).dequeueBulk L o
      = (some ([] ++ readWalk B c L hd),
         RingBuffer.mk B c ((hd + (L - o)) % c) t (s - (L - o)) w) := by
  have hkeep := countP_range_lt (L - o) L (by omega)
  have hfold := dequeueBulk_fold (L - o) (List.range L) ([] : List α) hd B c hd t s w
    hc hh hh (by rw [hkeep]; omega)
  rw [List.length_range, hkeep] at hfold
  unfold RingBuffer.dequeueBulk
  rw [if_neg (by simp only []; omega), if_neg (by simp only []; omega)]
  simp only []
  rw [hfold]

/-- Index evolution of the bulk-enqueue copy loop: the capacity and `head`
are untouched, `tail` advances modulo the capacity and `size` advances
modulo `2 ^ 64`, once per item. -/
theorem enqueueBulk_fold {α : Type} :
    ∀ (items : List α) (rb : RingBuffer α),
      0 < rb.buffer_length → rb.buffer_tail < rb.buffer_length →
      rb.buffer_size < w64 →
      (items.foldl enqueueBulkStep rb).buffer_length = rb.buffer_length ∧
        (items.foldl enqueueBulkStep rb).buffer_head = rb.buffer_head ∧
        (items.foldl enqueueBulkStep rb).buffer_tail
          = (rb.buffer_tail + items.length) % rb.buffer_length ∧
        (items.foldl enqueueBulkStep rb).buffer_size
          = (rb.buffer_size + items.length) % w64 := by
  intro items
  induction items with
  | nil =>
    intro rb h1 h2 h3
    exact ⟨rfl, rfl, by simp [Nat.mod_eq_of_lt h2], by simp [Nat.mod_eq_of_lt h3]⟩
  | cons x rest ih =>
    intro rb h1 h2 h3
    have e1 : (enqueueBulkStep rb x).buffer_length = rb.buffer_length := rfl
    have e2 : (enqueueBulkStep rb x).buffer_head = rb.buffer_head := rfl
    have e3 : (enqueueBulkStep rb x).buffer_tail
        = (rb.buffer_tail + 1) % rb.buffer_length := rfl
    have e4 : (enqueueBulkStep rb x).buffer_size = (rb.buffer_size + 1) % w64 := rfl
    obtain ⟨k1, k2, k3, k4⟩ := ih (enqueueBulkStep rb x)
      (by rw [e1]; exact h1)
      (by rw [e3, e1]; exact Nat.mod_lt _ h1)
      (by rw [e4]; exact Nat.mod_lt _ (by norm_num [w64]))
    have hfc : List.foldl enqueueBulkStep rb (x :: rest)
        = List.foldl enqueueBulkStep (enqueueBulkStep rb x) rest := rfl
    refine ⟨?_, ?_, ?_, ?_⟩
    · rw [hfc, k1, e1]
    · rw [hfc, k2, e2]
    · rw [hfc, k3, e3, e1, Nat.mod_add_mod, List.length_cons]
      congr 1
      omega
    · rw [hfc, k4, e4, Nat.mod_add_mod, List.length_cons]
      congr 1
      omega

/-- Membership in the sorted fringe insertion. -/
theorem mem_fringeInsert (q p : ℤ × ℤ) (l : List (ℤ × ℤ)) :
    q ∈ fringeInsert p l ↔ q = p ∨ q ∈ l := by
  induction l with
  | nil => simp [fringeInsert]
  | cons a t ih =>
    by_cases h : pairLe p a
    · simp [fringeInsert, h]
    · simp [fringeInsert, h, ih]
      tauto

/-- Invariant of the Dijkstra loop: every node in the fringe, every node
with a set distance, and every node with a set predecessor is reachable
from the source. -/
def DInv (g : Graph) (src : ℤ) (st : DijkstraState) : Prop :=
  (∀ p ∈ st.fringe, Reach g src p.2) ∧
    (∀ n, st.dist n ≠ -1 → Reach g src n) ∧
    (∀ n, st.prev n ≠ -1 → Reach g src n)

/-- Relaxing the edges out of a reachable node preserves the invariant. -/
theorem DInv_relax (g : Graph) (src u d : ℤ) (hu : Reach g src u) :
    ∀ (l : List Edge), (∀ e ∈ l, e ∈ g.nbr u) →
      ∀ st, DInv g src st → DInv g src (l.foldl (relaxEdge u d) st) := by
  intro l
  induction l with
  | nil => intro _ st h; exact h
  | cons e t ih =>
    intro hsub st hst
    refine ih (fun e' he' => hsub e' (List.mem_cons_of_mem _ he')) _ ?_
    have he : e ∈ g.nbr u := hsub e (List.mem_cons_self _ _)
    have hre : Reach g src e.dest :=
      Relation.ReflTransGen.tail hu ⟨e, he, rfl⟩
    by_cases h1 : st.used e.dest
    · have hid : relaxEdge u d st e = st := by simp [relaxEdge, h1]
      rw [hid]; exact hst
    · by_cases h2 : st.dist e.dest = -1 ∨
          truncToInt (e.weight + (d : ℚ)) < st.dist e.dest
      · have hsh : relaxEdge u d st e =
            { st with
              dist := fun n => if n = e.dest then
                  truncToInt (e.weight + (d : ℚ)) else st.dist n
              prev := fun n => if n = e.dest then u else st.prev n
              fringe := fringeInsert
                (truncToInt (e.weight + (d : ℚ)), e.dest) st.fringe } := by
          simp [relaxEdge, h1, h2]
        rw [hsh]
        obtain ⟨hf, hd, hp⟩ := hst
        refine ⟨?_, ?_, ?_⟩
        · intro p hmem
          rcases (mem_fringeInsert _ _ _).1 hmem with rfl | hmem'
          · exact hre
          · exact hf p hmem'
        · intro n hn
          by_cases hne : n = e.dest
          · subst hne; exact hre
          · simp only [if_neg hne] at hn
            exact hd n hn
        · intro n hn
          by_cases hne : n = e.dest
          · subst hne; exact hre
          · simp only [if_neg hne] at hn
            exact hp n hn
      · have hid : relaxEdge u d st e = st := by simp [relaxEdge, h1, h2]
        rw [hid]; exact hst

/-- The Dijkstra loop preserves the reachability invariant, for any fuel. -/
theorem DInv_loop (g : Graph) (src : ℤ) :
    ∀ (fuel : ℕ) (st : DijkstraState), DInv g src st →
      DInv g src (dijkstraLoop g.nbr fuel st) := by
  intro fuel
  induction fuel with
  | zero => intro st h; simpa [dijkstraLoop] using h
  | succ f ih =>
    intro st hst
    rcases hfr : st.fringe with _ | ⟨⟨d, u⟩, rest⟩
    · simpa [dijkstraLoop, hfr] using hst
    · have hu : Reach g src u :=
        hst.1 (d, u) (by rw [hfr]; exact List.mem_cons_self _ _)
      have hrest : ∀ p ∈ rest, Reach g src p.2 := fun p hp =>
        hst.1 p (by rw [hfr]; exact List.mem_cons_of_mem _ hp)
      by_cases hused : st.used u
      · rw [show dijkstraLoop g.nbr (f + 1) st
              = dijkstraLoop g.nbr f { st with fringe := rest } from by
            simp [dijkstraLoop, hfr, hused]]
        exact ih _ ⟨hrest, hst.2.1, hst.2.2⟩
      · rw [show dijkstraLoop g.nbr (f + 1) st
              = dijkstraLoop g.nbr f ((g.nbr u).foldl (relaxEdge u d)
                  { st with
                    fringe := rest
                    used := fun n => if n = u then true else st.used n }) from by
            simp [dijkstraLoop, hfr, hused]]
        exact ih _ (DInv_relax g src u d hu _ (fun e he => he) _
          ⟨hrest, hst.2.1, hst.2.2⟩)

/-- When the target is unreachable, `prev[target]` keeps its `-1` sentinel. -/
theorem dijkstra_prev_of_unreachable (g : Graph) (a b : ℤ)
    (h : ¬ Reach g a b) : (g.dijkstra a).prev b = -1 := by
  have h0 : DInv g a
      { dist := fun n => if n = a then 0 else -1
        prev := fun _ => -1
        used := fun _ => false
        fringe := [(0, a)] } := by
    refine ⟨?_, ?_, ?_⟩
    · intro p hp
      have : p = (0, a) := by simpa using hp
      rw [this]; exact Relation.ReflTransGen.refl
    · intro n hn
      by_cases hna : n = a
      · subst hna; exact Relation.ReflTransGen.refl
      · simp [hna] at hn
    · intro n hn; simp at hn
  have hres := DInv_loop g a (1 + 2 * g.num_edges).toNat _ h0
  by_contra hne
  exact h (hres.2.2 b hne)

/-- A `reconPath` walk starting at the sentinel is empty, for any fuel. -/
theorem reconPath_negOne (p : ℤ → ℤ) : ∀ m, reconPath p m (-1) = [] := by
  intro m
  cases m with
  | zero => rfl
  | succ m => simp [reconPath]

/-! ## Claim theorems -/

/-- Claim C1: for a graph constructed with nodes `0..N-1` (`N ≥ 3`) into
which exactly the edges `(0,1,1.0)`, `(1,2,1.0)`, `(0,2,5.0)` have been
inserted, `shortestPath(0,2)` produces the path string `"0-1-2"`: the
two-hop cost 2 beats the direct edge of cost 5. -/
theorem shortestPath_prefers_two_hop (N : ℤ) (hN : 3 ≤ N) :
    (processCalls (mkGraph N) [(0, 1, 1), (1, 2, 1), (0, 2, 5)]).shortestPath 0 2
      = "0-1-2" := by
  obtain ⟨k, hk⟩ : ∃ j : ℕ, N.toNat = j + 3 := ⟨N.toNat - 3, by omega⟩
  have hge0 : ¬((0:ℤ) ≥ N) := by omega
  have hge1 : ¬((1:ℤ) ≥ N) := by omega
  have hge2 : ¬((2:ℤ) ≥ N) := by omega
  norm_num [processCalls, mkGraph, Graph.addEdge, Graph.shortestPath, Graph.dijkstra,
    dijkstraLoop, relaxEdge, fringeInsert, pairLe, truncToInt, reconPath, buildMessage,
    hge0, hge1, hge2, hk]
  decide

/-- Witness for C1 at the concrete size `N = 3`. -/
theorem shortestPath_prefers_two_hop_inst :
    (processCalls (mkGraph 3) [(0, 1, 1), (1, 2, 1), (0, 2, 5)]).shortestPath 0 2
      = "0-1-2" :=
  shortestPath_prefers_two_hop 3 (by norm_num)

/-- Claim C7 fails on the code: in the graph on 2 nodes with the single
edge `(0, 1, 0.5)`, relaxing node 1 from node 0 stores the tentative
distance `int(0.5 + 0) = 0` — `Graph::dijkstra` declares `int weight =
edge.weight + currentDist;`, truncating the `double` sum — whereas the
exact sum `0.5 + 0` is not `0`.  The spec itself flags this truncation as
a defect to fix rather than a contract (§9, last open question). -/
theorem dijkstra_relaxation_truncates :
    ((processCalls (mkGraph 2) [(0, 1, 1/2)]).dijkstra 0).dist 1 = 0 ∧
      (1 : ℚ)/2 + ((0:ℤ):ℚ) ≠ ((0:ℤ):ℚ) := by
  constructor
  · norm_num [processCalls, mkGraph, Graph.addEdge, Graph.dijkstra,
      dijkstraLoop, relaxEdge, fringeInsert, pairLe, truncToInt]
  · norm_num

/-- Claim C8: `shortestPath(a, a)` short-circuits to the node id formatted
twice joined by `-`, and `shortestPath(a, b)` returns the empty string
whenever `b` is unreachable from `a` along the stored edges (the
reconstructed path then consists of the target alone). -/
theorem shortestPath_self_and_unreachable :
    (∀ (g : Graph) (a : ℤ), 0 ≤ a → a < g.num_nodes →
        g.shortestPath a a = toString a ++ "-" ++ toString a) ∧
      (∀ (g : Graph) (a b : ℤ), ¬ Reach g a b → g.shortestPath a b = "") := by
  constructor
  · intro g a _ _
    simp [Graph.shortestPath]
  · intro g a b h
    have hab : a ≠ b := by
      rintro rfl
      exact h Relation.ReflTransGen.refl
    have hprev : (g.dijkstra a).prev b = -1 :=
      dijkstra_prev_of_unreachable g a b h
    by_cases hb : b = -1
    · subst hb
      simp [Graph.shortestPath, hab, reconPath, buildMessage]
    · simp [Graph.shortestPath, hab, reconPath, hb, hprev, reconPath_negOne]

/-- Counting successful `addEdge` calls: `num_edges` after a call sequence
equals the starting count plus the number of in-range calls. -/
theorem processCalls_count (n : ℤ) :
    ∀ (calls : List (ℤ × ℤ × ℚ)) (g : Graph), g.num_nodes = n →
      (processCalls g calls).num_edges = g.num_edges +
        (calls.countP
          (fun c => decide (0 ≤ c.1 ∧ c.1 < n ∧ 0 ≤ c.2.1 ∧ c.2.1 < n)) : ℤ) := by
  intro calls
  induction calls with
  | nil => intro g hg; simp [processCalls]
  | cons c t ih =>
    intro g hg
    have hstep : processCalls g (c :: t) =
        processCalls ((g.addEdge c.1 c.2.1 c.2.2).getD g) t := rfl
    by_cases hc : 0 ≤ c.1 ∧ c.1 < n ∧ 0 ≤ c.2.1 ∧ c.2.1 < n
    · have hcond : ¬(c.1 ≥ g.num_nodes ∨ c.1 < 0 ∨ c.2.1 ≥ g.num_nodes ∨ c.2.1 < 0) := by
        rw [hg]; omega
      have hsome : g.addEdge c.1 c.2.1 c.2.2 =
          some { g with
            nbr := fun i => if i = c.2.1 then
                (if c.2.1 = c.1 then g.nbr c.1 ++ [Edge.mk c.2.1 c.2.2]
                  else g.nbr c.2.1) ++ [Edge.mk c.1 c.2.2]
              else (if i = c.1 then g.nbr c.1 ++ [Edge.mk c.2.1 c.2.2]
                else g.nbr i)
            num_edges := g.num_edges + 1 } := by
        unfold Graph.addEdge
        rw [if_neg hcond]
      rw [hstep, hsome, Option.getD_some]
      rw [ih _ (by simpa using hg)]
      simp [List.countP_cons, hc]
      ring
    · have hcond : c.1 ≥ g.num_nodes ∨ c.1 < 0 ∨ c.2.1 ≥ g.num_nodes ∨ c.2.1 < 0 := by
        rw [hg]; omega
      have hnone : g.addEdge c.1 c.2.1 c.2.2 = none := by
        unfold Graph.addEdge
        rw [if_pos hcond]
      rw [hstep, hnone, Option.getD_none]
      rw [ih _ hg]
      simp [List.countP_cons, hc]

/-- Claim C9: `addEdge` with an out-of-range endpoint fails with the
out-of-range signal before any mutation; an in-range call appends `(v,w)`
to `adjacency[u]` and `(u,w)` to `adjacency[v]`, touches no other list,
and increments `numEdges` by one; consequently `getNumEdges()` equals the
number of successful `addEdge` calls performed since construction. -/
theorem addEdge_range_check_and_count :
    (∀ (g : Graph) (u v : ℤ) (w : ℚ),
        (u ≥ g.num_nodes ∨ u < 0 ∨ v ≥ g.num_nodes ∨ v < 0) →
        g.addEdge u v w = none) ∧
      (∀ (g : Graph) (u v : ℤ) (w : ℚ),
        0 ≤ u → u < g.num_nodes → 0 ≤ v → v < g.num_nodes →
        ∃ g', g.addEdge u v w = some g' ∧
          g'.getNumEdges = g.getNumEdges + 1 ∧
          g'.num_nodes = g.num_nodes ∧
          (u ≠ v → g'.nbr u = g.nbr u ++ [Edge.mk v w] ∧
            g'.nbr v = g.nbr v ++ [Edge.mk u w]) ∧
          (u = v → g'.nbr u = g.nbr u ++ [Edge.mk v w, Edge.mk u w]) ∧
          (∀ i, i ≠ u → i ≠ v → g'.nbr i = g.nbr i)) ∧
      (∀ (n : ℤ) (calls : List (ℤ × ℤ × ℚ)),
        (processCalls (mkGraph n) calls).getNumEdges =
          (calls.countP
            (fun c => decide (0 ≤ c.1 ∧ c.1 < n ∧ 0 ≤ c.2.1 ∧ c.2.1 < n)) : ℤ)) := by
  refine ⟨?_, ?_, ?_⟩
  · intro g u v w h
    unfold Graph.addEdge
    rw [if_pos h]
  · intro g u v w hu0 hun hv0 hvn
    have hcond : ¬(u ≥ g.num_nodes ∨ u < 0 ∨ v ≥ g.num_nodes ∨ v < 0) := by omega
    refine ⟨{ g with
        nbr := fun i => if i = v then
            (if v = u then g.nbr u ++ [Edge.mk v w] else g.nbr v) ++ [Edge.mk u w]
          else (if i = u then g.nbr u ++ [Edge.mk v w] else g.nbr i)
        num_edges := g.num_edges + 1 },
      by unfold Graph.addEdge; rw [if_neg hcond], rfl, rfl, ?_, ?_, ?_⟩
    · intro huv
      constructor
      · simp [huv, Ne.symm huv]
      · simp [Ne.symm huv]
    · intro huv
      subst huv
      simp
    · intro i hiu hiv
      simp only [if_neg hiv, if_neg hiu]
  · intro n calls
    have := processCalls_count n calls (mkGraph n) rfl
    simpa [Graph.getNumEdges, mkGraph] using this

/-- Witness for C9: a two-node graph; the call `(2,0)` is out of range,
`(0,1)` succeeds, and of the sequence `[(0,1,1), (5,0,1)]` exactly the
first call counts. -/
theorem addEdge_range_check_and_count_inst :
    (mkGraph 2).addEdge 2 0 1 = none ∧
      (∃ g', (mkGraph 2).addEdge 0 1 1 = some g' ∧
        g'.getNumEdges = (mkGraph 2).getNumEdges + 1 ∧
        g'.num_nodes = (mkGraph 2).num_nodes ∧
        ((0:ℤ) ≠ 1 → g'.nbr 0 = (mkGraph 2).nbr 0 ++ [Edge.mk 1 1] ∧
          g'.nbr 1 = (mkGraph 2).nbr 1 ++ [Edge.mk 0 1]) ∧
        ((0:ℤ) = 1 → g'.nbr 0 = (mkGraph 2).nbr 0 ++ [Edge.mk 1 1, Edge.mk 0 1]) ∧
        (∀ i, i ≠ 0 → i ≠ 1 → g'.nbr i = (mkGraph 2).nbr i)) ∧
      (processCalls (mkGraph 2) [(0, 1, 1), (5, 0, 1)]).getNumEdges =
        (([(0, 1, 1), (5, 0, 1)] : List (ℤ × ℤ × ℚ)).countP
          (fun c => decide (0 ≤ c.1 ∧ c.1 < 2 ∧ 0 ≤ c.2.1 ∧ c.2.1 < 2)) : ℤ) := by
  refine ⟨?_, ?_, ?_⟩
  · exact addEdge_range_check_and_count.1 (mkGraph 2) 2 0 1
      (Or.inl (by norm_num [mkGraph]))
  · exact addEdge_range_check_and_count.2.1 (mkGraph 2) 0 1 1
      (by norm_num) (by norm_num [mkGraph]) (by norm_num) (by norm_num [mkGraph])
  · exact addEdge_range_check_and_count.2.2 2 [(0, 1, 1), (5, 0, 1)]

/-- Claim C2: for every capacity `c > 0` and every sequence of
single-element enqueues of length at most `c` into a fresh buffer,
subsequent single-element dequeues return the elements in exactly the
order they were enqueued. -/
theorem ringBuffer_fifo {α : Type} [Inhabited α] (c : ℕ) (xs : List α)
    (hc : 0 < c) (hlen : xs.length ≤ c) :
    drainSeq xs.length (enqueueSeq (mkRingBuffer c) xs) = xs := by
  obtain ⟨hL, hH, hS, hT, hB⟩ := enqueueSeq_spec c hc xs []
    (mkRingBuffer c) rfl rfl rfl (by simp [mkRingBuffer]) (by simpa using hlen)
    (by intro i h; simp at h)
  simp only [List.length_nil, Nat.zero_add] at hS hT hB
  rw [drainSeq_reads c hc xs.length _ hL (by rw [hH]; exact hc) (by omega), hH]
  have hpt : ∀ i ∈ List.range xs.length,
      (enqueueSeq (mkRingBuffer c) xs).buffer ((0 + i) % c) =
        xs.getD i default := by
    intro i hi
    have hilt : i < xs.length := List.mem_range.1 hi
    rw [Nat.zero_add, Nat.mod_eq_of_lt (lt_of_lt_of_le hilt hlen), hB i hilt]
    simp
  rw [List.map_congr_left hpt, map_getD_range default xs]

/-- Witness for C2 at capacity 3 with the three-element sequence `[1,2,3]`. -/
theorem ringBuffer_fifo_inst :
    drainSeq 3 (enqueueSeq (mkRingBuffer 3 : RingBuffer ℕ) [1, 2, 3]) = [1, 2, 3] :=
  ringBuffer_fifo 3 [1, 2, 3] (by norm_num) (by norm_num)

/-- Claim C3: every state-changing RingBuffer operation — `resize`,
`clear`, single and bulk `enqueue`, single and bulk `dequeue` — preserves
the state invariants `count ≤ capacity`, `head, tail ∈ [0, capacity)`
whenever `capacity > 0`, and `tail = (head + count) % capacity` (the
`front` peeks are `const` and have no state to preserve).  The capacity
bound `2 ^ 63` reflects that a `std::size_t` allocation of that size is
the largest addressable one; inside the bulk-enqueue eviction the
`size_t` wraparound of `buffer_size -= length` cancels against the copy
loop's increments, so the invariants survive even that underflow. -/
theorem ringBuffer_ops_preserve_invariants {α : Type} [Inhabited α]
    (rb : RingBuffer α) (x : α) (items : List α) (L o n : ℕ)
    (hinv : rb.Inv) (hcap : rb.buffer_length ≤ 2 ^ 63) :
    (rb.resize n).Inv ∧ rb.clear.Inv ∧ (rb.enqueue x).2.Inv ∧
      (rb.enqueueBulk items).2.Inv ∧ rb.dequeue.2.Inv ∧
      (rb.dequeueBulk L o).2.Inv := by
  obtain ⟨B, c, hd, t, s, w⟩ := rb
  obtain ⟨hsz, himp⟩ := hinv
  simp only [] at hsz hcap
  have hw2 : (2:ℕ) ^ 63 + 2 ^ 63 ≤ w64 := by norm_num [w64]
  refine ⟨?_, ?_, ?_, ?_, ?_, ?_⟩
  · simp [RingBuffer.resize, RingBuffer.clear, RingBuffer.Inv]
  · simp [RingBuffer.clear, RingBuffer.Inv]
  · -- single enqueue
    by_cases hc0 : c = 0
    · have heq : ((RingBuffer.mk B c hd t s w).enqueue x).2 = RingBuffer.mk B c hd t s w := by
        unfold RingBuffer.enqueue
        rw [if_pos (show (RingBuffer.mk B c hd t s w).buffer_length = 0 from hc0)]
      rw [heq]
      exact ⟨hsz, himp⟩
    · obtain ⟨hhd, htl, hte⟩ := himp (by simp only []; omega)
      simp only [] at hhd htl hte
      by_cases hf : c ≤ s
      · have hfb : (RingBuffer.mk B c hd t s w).full = true := by
          simp [RingBuffer.full, hf]
        have heq : ((RingBuffer.mk B c hd t s w).enqueue x).2
            = RingBuffer.mk (fun i => if i = t then x else B i) c
                ((hd + 1) % c) ((t + 1) % c) (s - 1 + 1) w := by
          unfold RingBuffer.enqueue
          rw [if_neg (show ¬ (RingBuffer.mk B c hd t s w).buffer_length = 0 from hc0)]
          simp [hfb]
        rw [heq]
        refine ⟨by simp only []; omega, fun hcp => ?_⟩
        simp only [] at hcp ⊢
        refine ⟨Nat.mod_lt _ hcp, Nat.mod_lt _ hcp, ?_⟩
        rw [hte, Nat.mod_add_mod, Nat.mod_add_mod]
        congr 1
        omega
      · have hfb : ¬ (RingBuffer.mk B c hd t s w).full = true := by
          simp [RingBuffer.full]
          omega
        have heq : ((RingBuffer.mk B c hd t s w).enqueue x).2
            = RingBuffer.mk (fun i => if i = t then x else B i) c
                hd ((t + 1) % c) (s + 1) w := by
          unfold RingBuffer.enqueue
          rw [if_neg (show ¬ (RingBuffer.mk B c hd t s w).buffer_length = 0 from hc0)]
          simp [hfb]
        rw [heq]
        refine ⟨by simp only []; omega, fun hcp => ?_⟩
        simp only [] at hcp ⊢
        refine ⟨hhd, Nat.mod_lt _ hcp, ?_⟩
        rw [hte, Nat.mod_add_mod]
        congr 1
  · -- bulk enqueue
    by_cases hg : items.length > c ∨ c = 0
    · have heq : ((RingBuffer.mk B c hd t s w).enqueueBulk items).2
          = RingBuffer.mk B c hd t s w := by
        unfold RingBuffer.enqueueBulk
        rw [if_pos (show items.length > (RingBuffer.mk B c hd t s w).buffer_length
          ∨ (RingBuffer.mk B c hd t s w).buffer_length = 0 from hg)]
      rw [heq]
      exact ⟨hsz, himp⟩
    · have hlc : items.length ≤ c := by omega
      have hc0 : 0 < c := by omega
      obtain ⟨hhd, htl, hte⟩ := himp (by simp only []; omega)
      simp only [] at hhd htl hte
      have hsw : s < w64 := by omega
      by_cases he : s + items.length ≥ c
      · have hhdl : hd + items.length < w64 := by omega
        have heq : ((RingBuffer.mk B c hd t s w).enqueueBulk items).2
            = items.foldl enqueueBulkStep
                (RingBuffer.mk B c (((hd + items.length) % w64) % c) t
                  ((s + (w64 - items.length)) % w64) w) := by
          unfold RingBuffer.enqueueBulk
          rw [if_neg (show ¬ (items.length > (RingBuffer.mk B c hd t s w).buffer_length
            ∨ (RingBuffer.mk B c hd t s w).buffer_length = 0) from by
              simp only []; omega)]
          simp only []
          rw [if_pos (show (RingBuffer.mk B c hd t s w).buffer_size + items.length
            ≥ (RingBuffer.mk B c hd t s w).buffer_length from he)]
        rw [heq]
        obtain ⟨k1, k2, k3, k4⟩ := enqueueBulk_fold items
          (RingBuffer.mk B c (((hd + items.length) % w64) % c) t
            ((s + (w64 - items.length)) % w64) w)
          (by simp only []; omega) (by simp only []; omega)
          (by simp only []; exact Nat.mod_lt _ (by omega))
        simp only [] at k1 k2 k3 k4
        have hsize : ((s + (w64 - items.length)) % w64 + items.length) % w64 = s := by
          rw [Nat.mod_add_mod,
            show s + (w64 - items.length) + items.length = s + w64 from by omega,
            Nat.add_mod_right, Nat.mod_eq_of_lt hsw]
        refine ⟨?_, fun hcp => ?_⟩
        · rw [k1, k4, hsize]
          omega
        · rw [k1] at hcp
          refine ⟨by rw [k2, k1]; exact Nat.mod_lt _ hcp,
            by rw [k3, k1]; exact Nat.mod_lt _ hcp, ?_⟩
          rw [k3, k2, k4, k1, hsize]
          rw [Nat.mod_eq_of_lt hhdl, hte, Nat.mod_add_mod, Nat.mod_add_mod]
          congr 1
          omega
      · have heq : ((RingBuffer.mk B c hd t s w).enqueueBulk items).2
            = items.foldl enqueueBulkStep (RingBuffer.mk B c hd t s w) := by
          unfold RingBuffer.enqueueBulk
          rw [if_neg (show ¬ (items.length > (RingBuffer.mk B c hd t s w).buffer_length
            ∨ (RingBuffer.mk B c hd t s w).buffer_length = 0) from by
              simp only []; omega)]
          simp only []
          rw [if_neg (show ¬ ((RingBuffer.mk B c hd t s w).buffer_size + items.length
            ≥ (RingBuffer.mk B c hd t s w).buffer_length) from he)]
        rw [heq]
        obtain ⟨k1, k2, k3, k4⟩ := enqueueBulk_fold items (RingBuffer.mk B c hd t s w)
          (by simp only []; omega) (by simp only []; exact htl)
          (by simp only []; omega)
        simp only [] at k1 k2 k3 k4
        have hsize : (s + items.length) % w64 = s + items.length :=
          Nat.mod_eq_of_lt (by omega)
        refine ⟨?_, fun hcp => ?_⟩
        · rw [k1, k4, hsize]
          omega
        · rw [k1] at hcp
          refine ⟨by rw [k2, k1]; exact hhd,
            by rw [k3, k1]; exact Nat.mod_lt _ hcp, ?_⟩
          rw [k3, k2, k4, k1, hsize]
          rw [hte, Nat.mod_add_mod]
          congr 1
          omega
  · -- single dequeue
    by_cases hc0 : c = 0
    · have heq : ((RingBuffer.mk B c hd t s w).dequeue).2 = RingBuffer.mk B c hd t s w := by
        unfold RingBuffer.dequeue
        rw [if_pos (show (RingBuffer.mk B c hd t s w).buffer_length = 0 from hc0)]
      rw [heq]
      exact ⟨hsz, himp⟩
    · by_cases hs0 : s = 0
      · have hem : (RingBuffer.mk B c hd t s w).empty = true := by
          simp [RingBuffer.empty, hs0]
        have heq : ((RingBuffer.mk B c hd t s w).dequeue).2
            = RingBuffer.mk B c hd t s w := by
          unfold RingBuffer.dequeue
          rw [if_neg (show ¬ (RingBuffer.mk B c hd t s w).buffer_length = 0 from hc0),
            if_pos hem]
        rw [heq]
        exact ⟨hsz, himp⟩
      · have hem : ¬ (RingBuffer.mk B c hd t s w).empty = true := by
          simp [RingBuffer.empty, hs0]
        have heq : ((RingBuffer.mk B c hd t s w).dequeue).2
            = RingBuffer.mk B c ((hd + 1) % c) t (s - 1) w := by
          unfold RingBuffer.dequeue
          rw [if_neg (show ¬ (RingBuffer.mk B c hd t s w).buffer_length = 0 from hc0),
            if_neg hem]
        rw [heq]
        obtain ⟨hhd, htl, hte⟩ := himp (by simp only []; omega)
        simp only [] at hhd htl hte
        refine ⟨by simp only []; omega, fun hcp => ?_⟩
        simp only [] at hcp ⊢
        refine ⟨Nat.mod_lt _ hcp, htl, ?_⟩
        rw [hte, Nat.mod_add_mod]
        congr 1
        omega
  · -- bulk dequeue
    by_cases hg : L > c ∨ c = 0 ∨ o > L
    · have heq : ((RingBuffer.mk B c hd t s w).dequeueBulk L o).2
          = RingBuffer.mk B c hd t s w := by
        unfold RingBuffer.dequeueBulk
        rw [if_pos (show L > (RingBuffer.mk B c hd t s w).buffer_length
          ∨ (RingBuffer.mk B c hd t s w).buffer_length = 0 ∨ o > L from hg)]
      rw [heq]
      exact ⟨hsz, himp⟩
    · by_cases hs : L > s
      · have heq : ((RingBuffer.mk B c hd t s w).dequeueBulk L o).2
            = RingBuffer.mk B c hd t s w := by
          unfold RingBuffer.dequeueBulk
          rw [if_neg (show ¬ (L > (RingBuffer.mk B c hd t s w).buffer_length
            ∨ (RingBuffer.mk B c hd t s w).buffer_length = 0 ∨ o > L) from by
              simp only []; omega)]
          rw [if_pos (show L > (RingBuffer.mk B c hd t s w).buffer_size from hs)]
        rw [heq]
        exact ⟨hsz, himp⟩
      · obtain ⟨hhd, htl, hte⟩ := himp (by simp only []; omega)
        simp only [] at hhd htl hte
        have heq := dequeueBulk_eq B c hd t s w L o (by omega) hhd (by omega)
          (by omega) (by omega)
        rw [heq]
        refine ⟨by simp only []; omega, fun hcp => ?_⟩
        simp only [] at hcp ⊢
        refine ⟨Nat.mod_lt _ hcp, htl, ?_⟩
        rw [hte, Nat.mod_add_mod]
        congr 1
        omega

/-- Witness for C3 on an empty two-slot buffer with a two-element batch. -/
theorem ringBuffer_ops_preserve_invariants_inst :
    ((RingBuffer.mk (fun _ => 0) 2 0 0 0 false : RingBuffer ℕ).resize 3).Inv ∧
      (RingBuffer.mk (fun _ => 0) 2 0 0 0 false : RingBuffer ℕ).clear.Inv ∧
      ((RingBuffer.mk (fun _ => 0) 2 0 0 0 false : RingBuffer ℕ).enqueue 1).2.Inv ∧
      ((RingBuffer.mk (fun _ => 0) 2 0 0 0 false : RingBuffer ℕ).enqueueBulk [1, 2]).2.Inv ∧
      (RingBuffer.mk (fun _ => 0) 2 0 0 0 false : RingBuffer ℕ).dequeue.2.Inv ∧
      ((RingBuffer.mk (fun _ => 0) 2 0 0 0 false : RingBuffer ℕ).dequeueBulk 0 0).2.Inv :=
  ringBuffer_ops_preserve_invariants (RingBuffer.mk (fun _ => 0) 2 0 0 0 false) 1
    [1, 2] 0 0 3 (by constructor <;> simp [RingBuffer.Inv]) (by norm_num)

/-- Claim C4: a bulk `dequeue(items, length, overlap)` under its
preconditions returns the `length` oldest elements starting at `head`,
advances `head` and decrements `count` by exactly `length - overlap`, and
a subsequent bulk dequeue of `overlap` elements returns exactly the last
`overlap` elements of the previous read. -/
theorem dequeueBulk_overlap_window {α : Type} [Inhabited α] (rb : RingBuffer α)
    (L o : ℕ) (hc : 0 < rb.buffer_length) (hh : rb.buffer_head < rb.buffer_length)
    (hL : L ≤ rb.buffer_length) (ho : o ≤ L) (hcnt : L ≤ rb.buffer_size) :
    (rb.dequeueBulk L o).1 = some (rb.toList.take L) ∧
      (rb.dequeueBulk L o).2.buffer_head
        = (rb.buffer_head + (L - o)) % rb.buffer_length ∧
      (rb.dequeueBulk L o).2.buffer_size = rb.buffer_size - (L - o) ∧
      ((rb.dequeueBulk L o).2.dequeueBulk o 0).1
        = some ((rb.toList.take L).drop (L - o)) := by
  obtain ⟨B, c, hd, t, s, w⟩ := rb
  simp only [] at hc hh hL hcnt
  have h1 := dequeueBulk_eq B c hd t s w L o hc hh hL ho hcnt
  have h2 := dequeueBulk_eq B c ((hd + (L - o)) % c) t (s - (L - o)) w o 0
    hc (Nat.mod_lt _ hc) (by omega) (by omega) (by omega)
  have htake : (RingBuffer.mk B c hd t s w).toList.take L = readWalk B c L hd := by
    unfold RingBuffer.toList
    simp only []
    rw [← List.map_take, List.take_range, readWalk_eq_map B c hc L hd hh]
    congr 2
    omega
  refine ⟨?_, ?_, ?_, ?_⟩
  · rw [h1, htake]
    simp
  · rw [h1]
  · rw [h1]
  · rw [h1]
    simp only []
    rw [h2, htake]
    have hdrop : (readWalk B c L hd).drop (L - o)
        = readWalk B c o ((hd + (L - o)) % c) := by
      rw [readWalk_eq_map B c hc L hd hh,
        readWalk_eq_map B c hc o ((hd + (L - o)) % c) (Nat.mod_lt _ hc),
        ← List.map_drop]
      have hr : (List.range L).drop (L - o)
          = (List.range o).map (fun x => (L - o) + x) := by
        rw [show List.range L
              = List.range (L - o) ++ (List.range o).map (fun x => (L - o) + x) from by
            rw [← List.range_add]; congr 1; omega]
        have hdl := List.drop_left (List.range (L - o))
          ((List.range o).map (fun x => (L - o) + x))
        rw [List.length_range] at hdl
        exact hdl
      rw [hr, List.map_map]
      apply List.map_congr_left
      intro i _
      show B ((hd + ((L - o) + i)) % c) = B (((hd + (L - o)) % c + i) % c)
      rw [Nat.mod_add_mod]
      congr 2
      omega
    rw [hdrop]
    simp

/-- Witness for C4: a full four-slot buffer, window length 3, overlap 1. -/
theorem dequeueBulk_overlap_window_inst :
    ((RingBuffer.mk (fun i => i) 4 0 0 4 false).dequeueBulk 3 1).1
        = some ((RingBuffer.mk (fun i => i) 4 0 0 4 false).toList.take 3) ∧
      ((RingBuffer.mk (fun i => i) 4 0 0 4 false).dequeueBulk 3 1).2.buffer_head
        = (0 + (3 - 1)) % 4 ∧
      ((RingBuffer.mk (fun i => i) 4 0 0 4 false).dequeueBulk 3 1).2.buffer_size
        = 4 - (3 - 1) ∧
      (((RingBuffer.mk (fun i => i) 4 0 0 4 false).dequeueBulk 3 1).2.dequeueBulk 1 0).1
        = some (((RingBuffer.mk (fun i => i) 4 0 0 4 false).toList.take 3).drop (3 - 1)) :=
  dequeueBulk_overlap_window (RingBuffer.mk (fun i => i) 4 0 0 4 false) 3 1
    (by decide) (by decide) (by decide) (by decide) (by decide)

/-- Claim C5: a single-element `enqueue` into a full buffer of positive
capacity `c` succeeds (returns true), evicts exactly the one oldest
element, stores the new item as the newest element, and leaves
`size() == c`: the new contents are the old contents without their head,
followed by the new item. -/
theorem enqueue_full_overwrites {α : Type} [Inhabited α] (rb : RingBuffer α)
    (x : α) (hc : 0 < rb.buffer_length)
    (hfull : rb.buffer_size = rb.buffer_length)
    (hh : rb.buffer_head < rb.buffer_length)
    (ht : rb.buffer_tail = (rb.buffer_head + rb.buffer_size) % rb.buffer_length) :
    (rb.enqueue x).1 = true ∧
      (rb.enqueue x).2.size = rb.buffer_length ∧
      (rb.enqueue x).2.toList = rb.toList.drop 1 ++ [x] := by
  obtain ⟨m, hm⟩ : ∃ m, rb.buffer_length = m + 1 := ⟨rb.buffer_length - 1, by omega⟩
  have htail : rb.buffer_tail = rb.buffer_head := by
    rw [ht, hfull, Nat.add_mod_right, Nat.mod_eq_of_lt hh]
  have hfullb : rb.full = true := by
    simp [RingBuffer.full, hfull]
  have hL : ¬ rb.buffer_length = 0 := by omega
  have henq : (rb.enqueue x).2 = { rb with
      buffer := fun i => if i = rb.buffer_tail then x else rb.buffer i
      buffer_head := (rb.buffer_head + 1) % rb.buffer_length
      buffer_tail := (rb.buffer_tail + 1) % rb.buffer_length
      buffer_size := rb.buffer_size - 1 + 1 } := by
    unfold RingBuffer.enqueue
    rw [if_neg hL]
    simp [hfullb]
  refine ⟨?_, ?_, ?_⟩
  · unfold RingBuffer.enqueue
    rw [if_neg hL]
  · rw [RingBuffer.size, henq]
    show rb.buffer_size - 1 + 1 = rb.buffer_length
    omega
  · rw [henq]
    unfold RingBuffer.toList
    show (List.range (rb.buffer_size - 1 + 1)).map
        (fun i => if ((rb.buffer_head + 1) % rb.buffer_length + i) % rb.buffer_length
            = rb.buffer_tail then x
          else rb.buffer (((rb.buffer_head + 1) % rb.buffer_length + i) % rb.buffer_length))
      = ((List.range rb.buffer_size).map
          (fun i => rb.buffer ((rb.buffer_head + i) % rb.buffer_length))).drop 1 ++ [x]
    have hsz : rb.buffer_size - 1 + 1 = m + 1 := by omega
    have hRHS : ((List.range rb.buffer_size).map
        (fun i => rb.buffer ((rb.buffer_head + i) % rb.buffer_length))).drop 1
          = (List.range m).map
            (fun i => rb.buffer ((rb.buffer_head + (i + 1)) % rb.buffer_length)) := by
      rw [hfull, hm, List.range_succ_eq_map]
      simp only [List.map_cons, List.map_map, List.drop_succ_cons, List.drop_zero]
      apply List.map_congr_left
      intro i _
      simp [Function.comp, Nat.succ_eq_add_one]
    rw [hsz, hRHS, List.range_succ, List.map_append, List.map_singleton]
    congr 1
    · apply List.map_congr_left
      intro i hi
      have hilt : i < m := List.mem_range.1 hi
      have hidx : ((rb.buffer_head + 1) % rb.buffer_length + i) % rb.buffer_length
          = (rb.buffer_head + (i + 1)) % rb.buffer_length := by
        rw [Nat.mod_add_mod]
        congr 1
        omega
      rw [hidx, if_neg]
      rw [htail, hm]
      exact mod_shift_ne (m + 1) rb.buffer_head (i + 1) (hm ▸ hh) (by omega) (by omega)
    · have hidx : ((rb.buffer_head + 1) % rb.buffer_length + m) % rb.buffer_length
          = rb.buffer_head := by
        rw [Nat.mod_add_mod]
        have : rb.buffer_head + 1 + m = rb.buffer_head + (m + 1) := by omega
        rw [this, hm, Nat.add_mod_right, Nat.mod_eq_of_lt (hm ▸ hh)]
      rw [hidx, htail, if_pos rfl]

/-- Witness for C5: a full three-slot buffer holding `[10, 20, 30]`. -/
theorem enqueue_full_overwrites_inst :
    ((RingBuffer.mk (fun i => 10 * (i + 1)) 3 0 0 3 false).enqueue 99).1 = true ∧
      ((RingBuffer.mk (fun i => 10 * (i + 1)) 3 0 0 3 false).enqueue 99).2.size = 3 ∧
      ((RingBuffer.mk (fun i => 10 * (i + 1)) 3 0 0 3 false).enqueue 99).2.toList
        = (RingBuffer.mk (fun i => 10 * (i + 1)) 3 0 0 3 false).toList.drop 1 ++ [99] :=
  enqueue_full_overwrites (RingBuffer.mk (fun i => 10 * (i + 1)) 3 0 0 3 false) 99
    (by norm_num) rfl (by norm_num) (by norm_num)

/-- Claim C6: every rejected operation reports failure through its return
value and leaves the buffer state untouched: single `enqueue`/`dequeue`/
`front` on a zero-capacity buffer, bulk enqueue with an oversized batch,
bulk dequeue with an oversized batch, an overlap exceeding the length, or
too few stored elements, and bulk `front` asking for more than is stored. -/
theorem failed_ops_leave_state_unchanged {α : Type} [Inhabited α]
    (rb : RingBuffer α) (x : α) (items : List α) (len overlap : ℕ) :
    (rb.buffer_length = 0 →
        rb.enqueue x = (false, rb) ∧ rb.dequeue = (none, rb) ∧ rb.front = none) ∧
      (items.length > rb.buffer_length → rb.enqueueBulk items = (false, rb)) ∧
      ((len > rb.buffer_length ∨ overlap > len ∨ rb.buffer_size < len) →
        rb.dequeueBulk len overlap = (none, rb)) ∧
      (len > rb.buffer_size → rb.frontBulk len = none) := by
  refine ⟨?_, ?_, ?_, ?_⟩
  · intro h
    exact ⟨by simp [RingBuffer.enqueue, h], by simp [RingBuffer.dequeue, h],
      by simp [RingBuffer.front, h]⟩
  · intro h
    unfold RingBuffer.enqueueBulk
    rw [if_pos (Or.inl h)]
  · intro h
    unfold RingBuffer.dequeueBulk
    rcases h with h | h | h
    · rw [if_pos (Or.inl h)]
    · rw [if_pos (Or.inr (Or.inr h))]
    · by_cases h2 : len > rb.buffer_length ∨ rb.buffer_length = 0 ∨ overlap > len
      · rw [if_pos h2]
      · rw [if_neg h2, if_pos (by omega)]
  · intro h
    unfold RingBuffer.frontBulk
    by_cases h2 : len > rb.buffer_length ∨ rb.buffer_length = 0
    · rw [if_pos h2]
    · rw [if_neg h2, if_pos (by omega)]

/-- Witness for C6 on a zero-capacity buffer and oversized requests. -/
theorem failed_ops_leave_state_unchanged_inst :
    ((mkRingBuffer 0 : RingBuffer ℕ).enqueue 7 = (false, mkRingBuffer 0) ∧
        (mkRingBuffer 0 : RingBuffer ℕ).dequeue = (none, mkRingBuffer 0) ∧
        (mkRingBuffer 0 : RingBuffer ℕ).front = none) ∧
      (mkRingBuffer 0 : RingBuffer ℕ).enqueueBulk [7] = (false, mkRingBuffer 0) ∧
      (mkRingBuffer 0 : RingBuffer ℕ).dequeueBulk 1 0 = (none, mkRingBuffer 0) ∧
      (mkRingBuffer 0 : RingBuffer ℕ).frontBulk 1 = none := by
  have h := failed_ops_leave_state_unchanged (mkRingBuffer 0 : RingBuffer ℕ) 7 [7] 1 0
  exact ⟨h.1 rfl, h.2.1 (by simp [mkRingBuffer]),
    h.2.2.1 (Or.inl (by simp [mkRingBuffer])), h.2.2.2 (by simp [mkRingBuffer])⟩

/-- Claim C10: on a zero-capacity buffer — freshly constructed or resized
to 0 — `full()` and `empty()` both return true, since `full()` is
`count >= capacity` and both counts are zero. -/
theorem zero_capacity_full_and_empty {α : Type} [Inhabited α] :
    ((mkRingBuffer 0 : RingBuffer α).full = true ∧
        (mkRingBuffer 0 : RingBuffer α).empty = true) ∧
      ∀ rb : RingBuffer α, (rb.resize 0).full = true ∧ (rb.resize 0).empty = true := by
  refine ⟨⟨?_, ?_⟩, fun rb => ⟨?_, ?_⟩⟩ <;>
    simp [mkRingBuffer, RingBuffer.resize, RingBuffer.clear,
      RingBuffer.full, RingBuffer.empty]

/-- Witness for C10 with a natural-number buffer resized from capacity 3. -/
theorem zero_capacity_full_and_empty_inst :
    ((mkRingBuffer 0 : RingBuffer ℕ).full = true ∧
        (mkRingBuffer 0 : RingBuffer ℕ).empty = true) ∧
      (((mkRingBuffer 3 : RingBuffer ℕ).resize 0).full = true ∧
        ((mkRingBuffer 3 : RingBuffer ℕ).resize 0).empty = true) :=
  ⟨zero_capacity_full_and_empty.1, zero_capacity_full_and_empty.2 (mkRingBuffer 3)⟩

/-- Witness for C8: a one-node graph for the self-path and the edgeless
two-node graph for the unreachable pair. -/
theorem shortestPath_self_and_unreachable_inst :
    (mkGraph 1).shortestPath 0 0 = toString (0:ℤ) ++ "-" ++ toString (0:ℤ) ∧
      (mkGraph 2).shortestPath 0 1 = "" := by
  constructor
  · exact shortestPath_self_and_unreachable.1 (mkGraph 1) 0 le_rfl
      (by norm_num [mkGraph])
  · refine shortestPath_self_and_unreachable.2 (mkGraph 2) 0 1 ?_
    intro h
    rcases Relation.ReflTransGen.cases_head h with h0 | ⟨c, hstep, -⟩
    · exact absurd h0 (by norm_num)
    · obtain ⟨e, he, -⟩ := hstep
      simp [mkGraph] at he
